import Mathlib

/-!
Shallow embedding of the kHeavyHash proof-of-work kernel of the
Nami_backpack repository (projects/nami-kaspa-miner/kaspa_pow.pyx,
kaspa_pow_v2.pyx, kaspa_pow_v3.pyx, and the compact-bits decoder of
skills/kaspa/SKILL.md), together with proofs checking the repository's
natural-language specification against the code.

Modelling conventions:
- byte strings are lists of naturals (each byte a value below 256 where the
  source guarantees it);
- unsigned 64-bit arithmetic is `Nat` with explicit reductions modulo `2 ^ 64`
  exactly where the C code truncates;
- the cSHAKE256 extendable-output primitive (an external library call,
  `Crypto.Hash.cSHAKE256`) is an abstract parameter of type `CShake`:
  a function of the customization tag and the input bytes returning the
  32 squeezed bytes.  Every theorem quantifies over it;
- the double-precision floats of the rank computer are modelled by `ℚ`
  (exact field arithmetic standing for the reals of the spec).
-/

namespace KaspaPow

def U64 : Nat := 2 ^ 64

/-- Customization tags passed to cSHAKE256 by the sources: the byte strings
b"ProofOfWorkHash" and b"HeavyHash". -/
inductive HashDomain
  | proofOfWorkHash
  | heavyHash
deriving DecidableEq

/-- Abstract model of `cSHAKE256.new(data=data, custom=tag).read(32)`:
a pure function of the tag and the data producing the 32 output bytes. -/
abbrev CShake := HashDomain → List Nat → Fin 32 → Nat

/-- Little-endian 8-byte encoding of an unsigned 64-bit value,
as produced by `struct.pack` with format <Q (v2/v3 compute_pow) and by the
byte loops of v1 heavyhash: byte j is `(x >> (8*j)) & 0xFF`. -/
def le64 (x : Nat) : List Nat := List.ofFn fun j : Fin 8 => (x >>> (8 * j.val)) &&& 0xFF

/-- Value of a little-endian byte string, as computed by
`int.from_bytes(bs, little)` in the Python interfaces. -/
def leNat : List Nat → Nat
  | [] => 0
  | b :: bs => b + 256 * leNat bs

/-- Value of a big-endian byte string: the hash bytes read as one large
unsigned integer, most significant byte first. -/
def beNat : List Nat → Nat
  | [] => 0
  | b :: bs => b * 256 ^ bs.length + beNat bs

/-- Big-endian n-byte encoding of a value below `256 ^ n`. -/
def beBytes : Nat → Nat → List Nat
  | 0, _ => []
  | n + 1, x => (x / 256 ^ n) :: beBytes n (x % 256 ^ n)

/-- Python's lexicographic comparison of two byte strings, the semantics of
`pow_hash < target` on `bytes` values in kaspa_pow.pyx check_pow. -/
def pyBytesLt : List Nat → List Nat → Bool
  | _, [] => false
  | [], _ :: _ => true
  | a :: xs, b :: ys => if a < b then true else if b < a then false else pyBytesLt xs ys

/-- State of the xoshiro256++ generator: four unsigned 64-bit words
(`s0..s3` of the Xoshiro256PlusPlus class in kaspa_pow.pyx / kaspa_pow_v2.pyx,
the `uint64_t state[4]` of kaspa_pow_v3.pyx). -/
structure XState where
  s0 : Nat
  s1 : Nat
  s2 : Nat
  s3 : Nat
deriving DecidableEq

/-- The 64-bit rotate-left `(x << k) | (x >> (64 - k))` of the sources
(rotl in all three .pyx files), on values below `2 ^ 64`. -/
def rotl64 (x : Nat) (k : Nat) : Nat := ((x <<< k) % U64) ||| (x >>> (64 - k))

/-- One step of xoshiro256++, identical in all three source files
(`next_uint64` of the PRNG class in v1/v2, `xoshiro_next` in v3):
result = rotl(s0 + s3, 23) + s0 in uint64 arithmetic, then the state update. -/
def xoshiroNext (s : XState) : Nat × XState :=
  let result := (rotl64 ((s.s0 + s.s3) % U64) 23 + s.s0) % U64
  let t := (s.s1 <<< 17) % U64
  let s2a := s.s2 ^^^ s.s0
  let s3a := s.s3 ^^^ s.s1
  let s1a := s.s1 ^^^ s2a
  let s0a := s.s0 ^^^ s3a
  let s2b := s2a ^^^ t
  let s3b := rotl64 s3a 45
  (result, ⟨s0a, s1a, s2b, s3b⟩)

/-- Advance only the PRNG state (the state component of `xoshiroNext`). -/
def xsStep (s : XState) : XState := (xoshiroNext s).2

/-- A 64x64 matrix of (nominally 4-bit) cell values, stored widened as
unsigned integers like the uint16 arrays of the sources. -/
abbrev Mat := Fin 64 → Fin 64 → Nat

/-- One PRNG draw filling 16 consecutive nibble cells of row `i`, columns
`16*g .. 16*g+15` (the body of the `for j in range(0, 64, 16)` loop of
generate_matrix in all three files, with `j = 16*g`): cell `j + k` receives
`(val >> (4*k)) & 0x0F`, least significant nibble first. -/
def drawGroup (acc : Mat × XState) (i : Fin 64) (g : Nat) : Mat × XState :=
  let v := xoshiroNext acc.2
  (fun r c =>
      if r = i ∧ 16 * g ≤ c.val ∧ c.val < 16 * g + 16 then
        (v.1 >>> (4 * (c.val - 16 * g))) &&& 0x0F
      else acc.1 r c,
    v.2)

/-- One attempt of the matrix generator: fill all 64 rows, 4 draws per row
(256 draws in total), starting from the zero matrix (np.zeros in v1/v2; the
v3 C buffer is fully overwritten by the same loop before any cell is read).
Returns the filled matrix and the advanced PRNG state. -/
def fillMatrix (st : XState) : Mat × XState :=
  (List.finRange 64).foldl
    (fun acc i => (List.range 4).foldl (fun acc2 g => drawGroup acc2 i g) acc)
    (fun _ _ => 0, st)

/-- State of the Gaussian elimination in compute_rank: the widened matrix
(`mat_float`), the `row_selected` flags and the running `rank` counter. -/
structure RankState where
  matF : Fin 64 → Fin 64 → ℚ
  sel : Fin 64 → Bool
  rank : Nat

/-- The `epsilon = 1e-9` tolerance of compute_rank, as an exact rational. -/
def epsQ : ℚ := 1 / 1000000000

/-- Pivot search of compute_rank for column `i`: the first row `j` that is not
yet selected and has `mat_float[j][i] > epsilon or mat_float[j][i] < -epsilon`
(the `while j < size` scan; `none` models `j == size`). -/
def pivotRow (st : RankState) (i : Fin 64) : Option (Fin 64) :=
  (List.finRange 64).find? fun j =>
    !st.sel j && (decide (epsQ < st.matF j i) || decide (st.matF j i < -epsQ))

/-- Body of the `for i in range(size)` loop of compute_rank (compute_rank_c in
kaspa_pow_v3.pyx; v1/v2 compute_rank is the same computation with the pivot
and factor values read in place): if a pivot row `j` is found, bump the rank,
mark `j` selected, divide `mat_float[j][p]` by the pivot value for
`p in i+1..63`, and for EVERY row `k != j` whose column-`i` entry is
non-negligible subtract `mat_float[j][p] * mat_float[k][i]` from
`mat_float[k][p]` for `p in i+1..63`. -/
def rankStep (st : RankState) (i : Fin 64) : RankState :=
  match pivotRow st i with
  | none => st
  | some j =>
    let temp := st.matF j i
    let m1 : Fin 64 → Fin 64 → ℚ := fun r c =>
      if r = j ∧ i < c then st.matF r c / temp else st.matF r c
    let m2 : Fin 64 → Fin 64 → ℚ := (List.finRange 64).foldl
      (fun m k =>
        if k ≠ j ∧ (epsQ < m k i ∨ m k i < -epsQ) then
          fun r c => if r = k ∧ i < c then m r c - m j c * (m k i) else m r c
        else m)
      m1
    { matF := m2, sel := fun r => if r = j then true else st.sel r, rank := st.rank + 1 }

/-- Initial elimination state: the integer matrix widened cell-wise to the
floating-point working matrix, nothing selected, rank 0. -/
def rankInit (m : Mat) : RankState :=
  { matF := fun r c => ((m r c : ℚ)), sel := fun _ => false, rank := 0 }

/-- The rank computer (compute_rank of kaspa_pow.pyx / kaspa_pow_v2.pyx,
compute_rank_c of kaspa_pow_v3.pyx): run the elimination over all 64 pivot
columns and return the rank counter. -/
def computeRank (m : Mat) : Nat :=
  ((List.finRange 64).foldl rankStep (rankInit m)).rank

/-- Retry loop shared by generate_matrix_internal (kaspa_pow.pyx),
generate_matrix (kaspa_pow_v2.pyx) and generate_matrix_c (kaspa_pow_v3.pyx):
fill a matrix from the current PRNG state; return it if compute_rank says 64,
otherwise retry from the advanced state.  The source loop is unbounded
(`while True`); the embedding makes the iteration count explicit as fuel and
returns `none` when the fuel runs out. -/
def matrixGenLoop : Nat → XState → Option Mat
  | 0, _ => none
  | fuel + 1, st =>
    let ms := fillMatrix st
    if computeRank ms.1 = 64 then some ms.1 else matrixGenLoop fuel ms.2

/-- Seed extraction of the Python interfaces generate_matrix (v2 and v3):
the four unsigned 64-bit words `int.from_bytes(pre_pow_hash[8*i : 8*i+8],
little)` of the 32-byte pre-PoW digest. -/
def seedsOfBytes (digest : List Nat) : XState :=
  ⟨leNat (digest.take 8), leNat ((digest.drop 8).take 8),
    leNat ((digest.drop 16).take 8), leNat ((digest.drop 24).take 8)⟩

/-- generate_matrix of kaspa_pow_v2.pyx (fuel-indexed). -/
def generateMatrixV2 (digest : List Nat) (fuel : Nat) : Option Mat :=
  matrixGenLoop fuel (seedsOfBytes digest)

/-- generate_matrix of kaspa_pow_v3.pyx (the Python wrapper around
generate_matrix_c; fuel-indexed).  Identical seed extraction and loop. -/
def generateMatrixV3 (digest : List Nat) (fuel : Nat) : Option Mat :=
  matrixGenLoop fuel (seedsOfBytes digest)

/-- The 80-byte header built by compute_pow in kaspa_pow_v2.pyx and
kaspa_pow_v3.pyx: `pre_pow_hash + pack(<Q, timestamp) + 32 zero bytes +
pack(<Q, nonce)` (80 bytes when the digest has 32 bytes; no length check is
performed by the source). -/
def headerBytes (digest : List Nat) (timestamp nonce : Nat) : List Nat :=
  digest ++ le64 timestamp ++ List.replicate 32 0 ++ le64 nonce

/-- Nibble expansion shared verbatim by all three files: `v[2i]` is the high
nibble `(h1[i] >> 4) & 0x0F` and `v[2i+1]` the low nibble `h1[i] & 0x0F` of
the first-pass hash byte `h1[i]`. -/
def nibbleVec (h1 : Fin 32 → Nat) : Fin 64 → Nat := fun j =>
  if j.val % 2 = 0 then (h1 ⟨j.val / 2, by omega⟩ >>> 4) &&& 0x0F
  else h1 ⟨j.val / 2, by omega⟩ &&& 0x0F

/-- heavy_hash_core of kaspa_pow_v3.pyx: matrix-vector multiply with a uint64
accumulator (`s += matrix[i*64+j] * v[j]`, each step truncated to 64 bits as
in C), then `p[i] = (s >> 10) & 0x0F`, then the XOR recombination
`digest[i] = pow_hash[i] ^ (((p[2i] & 0x0F) << 4) | (p[2i+1] & 0x0F))` with
the uint8 casts of the source (`% 256`).  Matrix cells are loaded from the
uint16 array (`% 65536`). -/
def heavyHashCore (matrix : Mat) (h1 : Fin 32 → Nat) : Fin 32 → Nat :=
  let v := nibbleVec h1
  let p : Fin 64 → Nat := fun i =>
    ((List.finRange 64).foldl (fun s j => (s + (matrix i j % 65536) * v j) % U64) 0 >>> 10)
      &&& 0x0F
  fun i =>
    h1 i ^^^
      ((((p ⟨2 * i.val, by omega⟩ % 256) &&& 0x0F) <<< 4) |||
        ((p ⟨2 * i.val + 1, by omega⟩ % 256) &&& 0x0F))

/-- heavy_hash_with_matrix of kaspa_pow_v2.pyx: the same nibble expansion,
uint64 matrix multiply with `p[i] = (s >> 10) & 0x0F`, uint8-cast XOR
recombination, and the final pass `cSHAKE256(digest, custom=b"HeavyHash")`. -/
def heavyHashWithMatrix (cshake : CShake) (matrix : Mat) (powHash : Fin 32 → Nat) :
    Fin 32 → Nat :=
  let v := nibbleVec powHash
  let p : Fin 64 → Nat := fun i =>
    ((List.finRange 64).foldl (fun s j => (s + (matrix i j % 65536) * v j) % U64) 0 >>> 10)
      &&& 0x0F
  let digest : Fin 32 → Nat := fun i =>
    powHash i ^^^
      ((((p ⟨2 * i.val, by omega⟩ % 256) &&& 0x0F) <<< 4) |||
        ((p ⟨2 * i.val + 1, by omega⟩ % 256) &&& 0x0F))
  cshake HashDomain.heavyHash (List.ofFn digest)

/-- compute_pow of kaspa_pow_v2.pyx: build the 80-byte header, take the first
pass `cSHAKE256(header, custom=b"ProofOfWorkHash")`, and hand the 32 bytes to
heavy_hash_with_matrix. -/
def computePowV2 (cshake : CShake) (digest : List Nat) (timestamp nonce : Nat)
    (matrix : Mat) : Fin 32 → Nat :=
  heavyHashWithMatrix cshake matrix
    (cshake HashDomain.proofOfWorkHash (headerBytes digest timestamp nonce))

/-- compute_pow of kaspa_pow_v3.pyx: build the 80-byte header, first-pass
cSHAKE256 with the ProofOfWorkHash tag, heavy_hash_core, and the final
cSHAKE256 with the HeavyHash tag. -/
def computePowV3 (cshake : CShake) (digest : List Nat) (timestamp nonce : Nat)
    (matrix : Mat) : Fin 32 → Nat :=
  let h1 := cshake HashDomain.proofOfWorkHash (headerBytes digest timestamp nonce)
  cshake HashDomain.heavyHash (List.ofFn (heavyHashCore matrix h1))

/-- compute_pow_batch of kaspa_pow_v3.pyx: loop over the nonce list, rebuild
the header for each nonce, run the first-pass hash, heavy_hash_core and the
final hash, and append `(nonce, pow_hash)` to the results list. -/
def computePowBatch (cshake : CShake) (digest : List Nat) (timestamp : Nat)
    (nonces : List Nat) (matrix : Mat) : List (Nat × (Fin 32 → Nat)) :=
  nonces.foldl
    (fun results nonce =>
      let data := digest ++ le64 timestamp ++ List.replicate 32 0 ++ le64 nonce
      let h1 := cshake HashDomain.proofOfWorkHash data
      let powOut := cshake HashDomain.heavyHash (List.ofFn (heavyHashCore matrix h1))
      results ++ [(nonce, powOut)])
    []

/-- heavyhash of kaspa_pow.pyx (the v1 pipeline): regenerate the full-rank
matrix from the four seed words, build the 80-byte header byte-by-byte
(`header[i*8+j] = (hash_values[i] >> (j*8)) & 0xFF`, then timestamp, zero
padding and nonce, all little-endian), run the ProofOfWorkHash pass, expand
nibbles, multiply with `p[i] = (s >> 10) & 0xFFFF` (uint16), XOR with
`((p[2i] & 0x0F) << 4) | (p[2i+1] & 0x0F)`, run the HeavyHash pass, and
return the 32 bytes REVERSED (`result[::-1]`). -/
def heavyhashV1Body (cshake : CShake) (hashValues : Fin 4 → Nat)
    (timestamp nonce : Nat) (matrix : Mat) : List Nat :=
  -- Everything heavyhash does after generate_matrix_internal has returned.
  let header := le64 (hashValues 0) ++ le64 (hashValues 1) ++ le64 (hashValues 2) ++
    le64 (hashValues 3) ++ le64 timestamp ++ List.replicate 32 0 ++ le64 nonce
  let h1 := cshake HashDomain.proofOfWorkHash header
  let v := nibbleVec h1
  let p : Fin 64 → Nat := fun i =>
    ((List.finRange 64).foldl (fun s j => (s + matrix i j * v j) % U64) 0 >>> 10)
      &&& 0xFFFF
  let digest : Fin 32 → Nat := fun i =>
    h1 i ^^^
      (((p ⟨2 * i.val, by omega⟩ &&& 0x0F) <<< 4) |||
        (p ⟨2 * i.val + 1, by omega⟩ &&& 0x0F))
  (List.ofFn (cshake HashDomain.heavyHash (List.ofFn digest))).reverse

def heavyhashV1 (cshake : CShake) (hashValues : Fin 4 → Nat) (timestamp nonce : Nat)
    (fuel : Nat) : Option (List Nat) :=
  (matrixGenLoop fuel ⟨hashValues 0, hashValues 1, hashValues 2, hashValues 3⟩).map
    fun matrix => heavyhashV1Body cshake hashValues timestamp nonce matrix

/-- check_pow of kaspa_pow.pyx: `pow_hash < target` on Python bytes, i.e.
lexicographic byte comparison. -/
def checkPowV1 (powHash target : List Nat) : Bool := pyBytesLt powHash target

/-- check_pow of kaspa_pow_v2.pyx: read the first 8 bytes of the hash as a
little-endian unsigned 64-bit integer and compare it with the uint64 target. -/
def checkPowV2 (powHash : List Nat) (target : Nat) : Bool :=
  decide (leNat (powHash.take 8) < target)

/-- bits_to_target of skills/kaspa/SKILL.md: exponent is the top byte,
coefficient the low 24 bits; shift the coefficient right by `8*(3-exponent)`
bits when the exponent is at most 3 and left by `8*(exponent-3)` otherwise. -/
def bits_to_target (bits : Nat) : Nat :=
  let exponent := (bits >>> 24) &&& 0xFF
  let coefficient := bits &&& 0xFFFFFF
  if exponent ≤ 3 then coefficient >>> (8 * (3 - exponent))
  else coefficient <<< (8 * (exponent - 3))

/-- Specification-side digest of claim C1, written from the claim's words:
header = D || LE64(T) || 32 zero bytes || LE64(N); h1 = cSHAKE256 of the
header with the ProofOfWorkHash customization; v[2i] / v[2i+1] the high / low
nibble of h1[i]; p[i] the 64-bit-accumulated row sum shifted right by 10 and
masked to 4 bits; d[i] = h1[i] XOR ((p[2i] << 4) | p[2i+1]). -/
def specPowDigest (cshake : CShake) (digest : List Nat) (timestamp nonce : Nat)
    (matrix : Mat) : Fin 32 → Nat :=
  let header := digest ++ le64 timestamp ++ List.replicate 32 0 ++ le64 nonce
  let h1 := cshake HashDomain.proofOfWorkHash header
  let v : Fin 64 → Nat := fun j =>
    if j.val % 2 = 0 then (h1 ⟨j.val / 2, by omega⟩ >>> 4) &&& 0x0F
    else h1 ⟨j.val / 2, by omega⟩ &&& 0x0F
  let p : Fin 64 → Nat := fun i =>
    (((∑ j : Fin 64, matrix i j * v j) % U64) >>> 10) &&& 0x0F
  fun i =>
    h1 i ^^^ ((p ⟨2 * i.val, by omega⟩ <<< 4) ||| p ⟨2 * i.val + 1, by omega⟩)

/-- Specification-side elimination step of claim C5, written from the claim's
words: select the first unselected row whose entry in the pivot column has
absolute value greater than epsilon, mark it selected, normalize it, and
eliminate the column ONLY from the other non-selected rows with a
non-negligible entry (previously selected rows are left untouched). -/
def rankStepSpec (st : RankState) (i : Fin 64) : RankState :=
  match (List.finRange 64).find? (fun j => !st.sel j && decide (epsQ < |st.matF j i|)) with
  | none => st
  | some j =>
    let temp := st.matF j i
    let m1 : Fin 64 → Fin 64 → ℚ := fun r c =>
      if r = j ∧ i < c then st.matF r c / temp else st.matF r c
    let m2 : Fin 64 → Fin 64 → ℚ := (List.finRange 64).foldl
      (fun m k =>
        if k ≠ j ∧ st.sel k = false ∧ epsQ < |m k i| then
          fun r c => if r = k ∧ i < c then m r c - m j c * (m k i) else m r c
        else m)
      m1
    { matF := m2, sel := fun r => if r = j then true else st.sel r, rank := st.rank + 1 }

/-- Amended elimination step for claim C5: exactly the claim's description
except that the column is eliminated from EVERY other row with a
non-negligible entry, previously selected rows included. -/
def rankStepSpecAmended (st : RankState) (i : Fin 64) : RankState :=
  match (List.finRange 64).find? (fun j => !st.sel j && decide (epsQ < |st.matF j i|)) with
  | none => st
  | some j =>
    let temp := st.matF j i
    let m1 : Fin 64 → Fin 64 → ℚ := fun r c =>
      if r = j ∧ i < c then st.matF r c / temp else st.matF r c
    let m2 : Fin 64 → Fin 64 → ℚ := (List.finRange 64).foldl
      (fun m k =>
        if k ≠ j ∧ epsQ < |m k i| then
          fun r c => if r = k ∧ i < c then m r c - m j c * (m k i) else m r c
        else m)
      m1
    { matF := m2, sel := fun r => if r = j then true else st.sel r, rank := st.rank + 1 }

/-- The four little-endian 64-bit words of a 32-byte digest, the
`hash_values` argument that claim C3 feeds to the v1 heavyhash. -/
def seedWords (digest : List Nat) : Fin 4 → Nat := fun i =>
  leNat ((digest.drop (8 * i.val)).take 8)

theorem and_mask15 (x : Nat) : x &&& 0x0F = x % 16 := by
  have h := Nat.and_pow_two_sub_one_eq_mod x 4
  norm_num at h
  exact h

theorem and_mask255 (x : Nat) : x &&& 0xFF = x % 256 := by
  have h := Nat.and_pow_two_sub_one_eq_mod x 8
  norm_num at h
  exact h

theorem and_mask65535 (x : Nat) : x &&& 0xFFFF = x % 65536 := by
  have h := Nat.and_pow_two_sub_one_eq_mod x 16
  norm_num at h
  exact h

theorem and_mask24 (x : Nat) : x &&& 0xFFFFFF = x % 16777216 := by
  have h := Nat.and_pow_two_sub_one_eq_mod x 24
  norm_num at h
  exact h

theorem foldl_add_mod {α : Type} (m : Nat) (f : α → Nat) :
    ∀ (l : List α) (a : Nat),
      l.foldl (fun s j => (s + f j) % m) (a % m) = (a + (l.map f).sum) % m := by
  intro l
  induction l with
  | nil => intro a; simp
  | cons x xs ih =>
    intro a
    simp only [List.foldl_cons, List.map_cons, List.sum_cons]
    rw [Nat.mod_add_mod, ih (a + f x), Nat.add_assoc]

theorem foldl_add_mod_finRange (m : Nat) (f : Fin 64 → Nat) :
    (List.finRange 64).foldl (fun s j => (s + f j) % m) 0 = (∑ j : Fin 64, f j) % m := by
  have h0 : (0 : Nat) = 0 % m := (Nat.zero_mod m).symm
  rw [h0, foldl_add_mod m f (List.finRange 64) 0, Nat.zero_add, Fin.sum_univ_def]

theorem leNat_byte :
    ∀ (bs : List Nat), (∀ b ∈ bs, b < 256) → ∀ (j : Nat), (hj : j < bs.length) →
      (leNat bs >>> (8 * j)) % 256 = bs[j] := by
  intro bs
  induction bs with
  | nil => intro _ j hj; simp at hj
  | cons b tl ih =>
    intro hb j hj
    have hblt : b < 256 := hb b (by simp)
    cases j with
    | zero =>
      simp only [Nat.mul_zero, Nat.shiftRight_zero, leNat]
      rw [Nat.add_mul_mod_self_left, Nat.mod_eq_of_lt hblt]
      simp
    | succ j2 =>
      have hsp : 8 * (j2 + 1) = 8 + 8 * j2 := by ring
      rw [hsp, Nat.shiftRight_add]
      have hshift : leNat (b :: tl) >>> 8 = leNat tl := by
        rw [Nat.shiftRight_eq_div_pow]
        show (b + 256 * leNat tl) / 2 ^ 8 = leNat tl
        norm_num
        rw [Nat.add_mul_div_left b (leNat tl) (by norm_num : (0:Nat) < 256)]
        simp [Nat.div_eq_of_lt hblt]
      rw [hshift]
      have := ih (fun x hx => hb x (by simp [hx])) j2 (by simpa using hj)
      simpa using this

theorem le64_leNat (bs : List Nat) (hlen : bs.length = 8) (hb : ∀ b ∈ bs, b < 256) :
    le64 (leNat bs) = bs := by
  apply List.ext_getElem
  · simp [le64, hlen]
  · intro i h1 h2
    simp only [le64, List.getElem_ofFn]
    rw [and_mask255]
    exact leNat_byte bs hb i (by omega)

theorem leNat_lt (bs : List Nat) (hb : ∀ b ∈ bs, b < 256) :
    leNat bs < 256 ^ bs.length := by
  induction bs with
  | nil => simp [leNat]
  | cons b tl ih =>
    have hblt : b < 256 := hb b (by simp)
    have htl := ih (fun x hx => hb x (by simp [hx]))
    simp only [leNat, List.length_cons]
    calc b + 256 * leNat tl < 256 + 256 * leNat tl := by omega
    _ ≤ 256 * (leNat tl + 1) := by ring_nf; omega
    _ ≤ 256 * 256 ^ tl.length := by
        apply Nat.mul_le_mul_left
        omega
    _ = 256 ^ (tl.length + 1) := by ring

theorem powP_eq (M : Mat) (v : Fin 64 → Nat) (hM : ∀ r c, M r c ≤ 15) (k : Fin 64) :
    (List.finRange 64).foldl (fun s j => (s + (M k j % 65536) * v j) % U64) 0 =
      (∑ j : Fin 64, M k j * v j) % U64 := by
  have hfun : (fun (s : Nat) (j : Fin 64) => (s + (M k j % 65536) * v j) % U64) =
      fun s j => (s + M k j * v j) % U64 := by
    funext s j
    rw [Nat.mod_eq_of_lt (show M k j < 65536 by have := hM k j; omega)]
  rw [hfun, foldl_add_mod_finRange U64 (fun j => M k j * v j)]

theorem mask_small_cast (x : Nat) : ((x &&& 0x0F) % 256) &&& 0x0F = x &&& 0x0F := by
  rw [and_mask15, and_mask15]
  omega

/-- C1.  For every pre-PoW digest, 64-bit timestamp and nonce, and 64x64
matrix of values in [0,15], compute_pow of kaspa_pow_v3.pyx and of
kaspa_pow_v2.pyx both return the cSHAKE256(HeavyHash) output of the digest d
spelled out by the claim (header D || LE64(T) || 0^32 || LE64(N), first-pass
cSHAKE256(ProofOfWorkHash), high/low nibble expansion, 64-bit row sums shifted
right by 10 and masked to 4 bits, and d[i] = h1[i] XOR ((p[2i] << 4) |
p[2i+1])); for a 32-byte digest the header has exactly 80 bytes. -/
theorem claim_c1 (cshake : CShake) (D : List Nat) (T N : Nat) (M : Mat)
    (hM : ∀ r c, M r c ≤ 15) (hD : D.length = 32) :
    (headerBytes D T N).length = 80 ∧
    computePowV3 cshake D T N M =
      cshake HashDomain.heavyHash (List.ofFn (specPowDigest cshake D T N M)) ∧
    computePowV2 cshake D T N M =
      cshake HashDomain.heavyHash (List.ofFn (specPowDigest cshake D T N M)) := by
  have hcore : List.ofFn
        (heavyHashCore M (cshake HashDomain.proofOfWorkHash (headerBytes D T N))) =
      List.ofFn (specPowDigest cshake D T N M) := by
    apply congrArg
    funext i
    show heavyHashCore M (cshake HashDomain.proofOfWorkHash (headerBytes D T N)) i = _
    unfold heavyHashCore specPowDigest headerBytes nibbleVec
    simp only
    rw [powP_eq M _ hM, powP_eq M _ hM, mask_small_cast, mask_small_cast]
  refine ⟨?_, ?_, ?_⟩
  · simp [headerBytes, le64, hD]
  · unfold computePowV3
    simp only
    rw [hcore]
  · unfold computePowV2 heavyHashWithMatrix
    simp only
    rw [show (fun i : Fin 32 =>
        cshake HashDomain.proofOfWorkHash (headerBytes D T N) i ^^^ _) =
      heavyHashCore M (cshake HashDomain.proofOfWorkHash (headerBytes D T N)) from rfl]
    rw [hcore]

/-- Concrete stand-in hash for witnesses: every squeeze returns zero bytes. -/
def cshakeZero : CShake := fun _ _ _ => 0

/-- The all-zero 32-byte digest. -/
def zeros32 : List Nat := List.replicate 32 0

/-- The all-zero 64x64 matrix. -/
def matZero : Mat := fun _ _ => 0

/-- Witness for C1 at the zero digest, zero matrix and constant-zero hash. -/
theorem claim_c1_witness :
    (∀ r c : Fin 64, matZero r c ≤ 15) ∧ zeros32.length = 32 ∧
    ((headerBytes zeros32 0 0).length = 80 ∧
      computePowV3 cshakeZero zeros32 0 0 matZero =
        cshakeZero HashDomain.heavyHash
          (List.ofFn (specPowDigest cshakeZero zeros32 0 0 matZero)) ∧
      computePowV2 cshakeZero zeros32 0 0 matZero =
        cshakeZero HashDomain.heavyHash
          (List.ofFn (specPowDigest cshakeZero zeros32 0 0 matZero))) :=
  ⟨fun _ _ => Nat.zero_le 15, by decide,
    claim_c1 cshakeZero zeros32 0 0 matZero (fun _ _ => Nat.zero_le 15) (by decide)⟩

theorem foldl_append_eq_map {α β : Type} (g : α → β) :
    ∀ (l : List α) (acc : List β),
      l.foldl (fun res x => res ++ [g x]) acc = acc ++ l.map g := by
  intro l
  induction l with
  | nil => intro acc; simp
  | cons x xs ih =>
    intro acc
    simp only [List.foldl_cons, List.map_cons]
    rw [ih (acc ++ [g x])]
    simp

/-- C4.  compute_pow_batch of kaspa_pow_v3.pyx returns exactly the list of
pairs `(n, compute_pow(digest, timestamp, n, matrix))` for the nonces `n` in
order: the batch path is element-wise identical to repeated single calls. -/
theorem claim_c4 (cshake : CShake) (D : List Nat) (T : Nat) (nonces : List Nat) (M : Mat) :
    computePowBatch cshake D T nonces M =
      nonces.map fun n => (n, computePowV3 cshake D T n M) := by
  show nonces.foldl (fun res n => res ++ [(n, computePowV3 cshake D T n M)]) [] = _
  rw [foldl_append_eq_map (fun n => (n, computePowV3 cshake D T n M)) nonces []]
  simp

/-- C6 counterexample.  compute_pow (v3 and v2) accepts the 31-byte digest:
it builds a 79-byte header, hashes it and returns normally instead of
rejecting with an invalid-input-length error. -/
theorem claim_c6_counterexample :
    (List.replicate 31 (0 : Nat)).length ≠ 32 ∧
    (headerBytes (List.replicate 31 0) 0 0).length = 79 ∧
    computePowV3 cshakeZero (List.replicate 31 0) 0 0 matZero = (fun _ => 0) ∧
    computePowV2 cshakeZero (List.replicate 31 0) 0 0 matZero = (fun _ => 0) := by
  refine ⟨by decide, by simp [headerBytes, le64], rfl, rfl⟩

/-- C6 amended.  compute_pow performs no length validation at all: for every
digest byte string D (of any length) it embeds D unmodified (never truncated,
never padded) at the start of a header of length `|D| + 48` and returns the
HeavyHash-tagged hash of the transformed ProofOfWorkHash-tagged hash of that
header; no error condition exists on the digest length. -/
theorem claim_c6_amended (cshake : CShake) (D : List Nat) (T N : Nat) (M : Mat) :
    (headerBytes D T N).length = D.length + 48 ∧
    (headerBytes D T N).take D.length = D ∧
    computePowV3 cshake D T N M =
      cshake HashDomain.heavyHash (List.ofFn (heavyHashCore M
        (cshake HashDomain.proofOfWorkHash (headerBytes D T N)))) ∧
    computePowV2 cshake D T N M =
      heavyHashWithMatrix cshake M
        (cshake HashDomain.proofOfWorkHash (headerBytes D T N)) := by
  refine ⟨by simp [headerBytes, le64], ?_, rfl, rfl⟩
  unfold headerBytes
  rw [List.append_assoc, List.append_assoc, List.take_left]

/-- C10.  check_pow of kaspa_pow_v2.pyx returns true iff the FIRST 8 bytes of
the hash, read as a little-endian unsigned 64-bit integer, are strictly below
the 64-bit target; hashes agreeing on bytes 0..7 always get the same verdict
(bytes 8..31 are ignored), and the little-endian reading disagrees with the
big-endian ordering of the full comparator (concrete disagreeing instance in
the last conjunct). -/
theorem claim_c10 (h h1 h2 : List Nat) (t : Nat)
    (_hlen : h.length = 32) (_hb : ∀ b ∈ h, b < 256) (_ht : t < 2 ^ 64)
    (hagree : h1.take 8 = h2.take 8) :
    (checkPowV2 h t = true ↔ leNat (h.take 8) < t) ∧
    checkPowV2 h1 t = checkPowV2 h2 t ∧
    (checkPowV2 ([0, 1] ++ List.replicate 30 0) 1000 = true ∧
      ¬ beNat (([0, 1] ++ List.replicate 30 0).take 8) < 1000) := by
  refine ⟨by simp [checkPowV2], by simp [checkPowV2, hagree], by decide, by decide⟩

/-- Witness for C10 at the all-zero hash and target 5. -/
theorem claim_c10_witness :
    zeros32.length = 32 ∧ (5 : Nat) < 2 ^ 64 ∧
    ((checkPowV2 zeros32 5 = true ↔ leNat (zeros32.take 8) < 5) ∧
      checkPowV2 zeros32 5 = checkPowV2 zeros32 5 ∧
      (checkPowV2 ([0, 1] ++ List.replicate 30 0) 1000 = true ∧
        ¬ beNat (([0, 1] ++ List.replicate 30 0).take 8) < 1000)) :=
  ⟨by decide, by decide,
    claim_c10 zeros32 zeros32 zeros32 5 (by decide) (by decide) (by decide) rfl⟩

theorem beNat_lt_pow (bs : List Nat) (hb : ∀ b ∈ bs, b < 256) :
    beNat bs < 256 ^ bs.length := by
  induction bs with
  | nil => simp [beNat]
  | cons b tl ih =>
    have hblt : b < 256 := hb b (by simp)
    have htl := ih (fun x hx => hb x (by simp [hx]))
    simp only [beNat, List.length_cons]
    calc b * 256 ^ tl.length + beNat tl < b * 256 ^ tl.length + 256 ^ tl.length := by omega
    _ = (b + 1) * 256 ^ tl.length := by ring
    _ ≤ 256 * 256 ^ tl.length := Nat.mul_le_mul_right _ (by omega)
    _ = 256 ^ (tl.length + 1) := by ring

theorem pyBytesLt_iff_beNat :
    ∀ (xs ys : List Nat), xs.length = ys.length →
      (∀ b ∈ xs, b < 256) → (∀ b ∈ ys, b < 256) →
      (pyBytesLt xs ys = true ↔ beNat xs < beNat ys) := by
  intro xs
  induction xs with
  | nil =>
    intro ys hl _ _
    cases ys with
    | nil => simp [pyBytesLt, beNat]
    | cons b tl => simp at hl
  | cons a tl ih =>
    intro ys hl hx hy
    cases ys with
    | nil => simp at hl
    | cons b tl2 =>
      have hlt : tl.length = tl2.length := by simpa using hl
      have htlx : ∀ x ∈ tl, x < 256 := fun x hx2 => hx x (by simp [hx2])
      have htly : ∀ x ∈ tl2, x < 256 := fun x hx2 => hy x (by simp [hx2])
      have hbx := beNat_lt_pow tl htlx
      have hby := beNat_lt_pow tl2 htly
      rw [hlt] at hbx
      simp only [pyBytesLt, beNat, hlt]
      by_cases hab : a < b
      · rw [if_pos hab]
        have h2 : (a + 1) * 256 ^ tl2.length ≤ b * 256 ^ tl2.length :=
          Nat.mul_le_mul_right _ (by omega)
        rw [Nat.succ_mul] at h2
        exact ⟨fun _ => by omega, fun _ => rfl⟩
      · rw [if_neg hab]
        by_cases hba : b < a
        · rw [if_pos hba]
          have h2 : (b + 1) * 256 ^ tl2.length ≤ a * 256 ^ tl2.length :=
            Nat.mul_le_mul_right _ (by omega)
          rw [Nat.succ_mul] at h2
          exact ⟨fun hf => absurd hf Bool.false_ne_true, fun hlt => absurd hlt (by omega)⟩
        · have hab2 : a = b := by omega
          subst hab2
          rw [if_neg hba, ih tl2 hlt htlx htly]
          omega

theorem pyBytesLt_irrefl (l : List Nat) : pyBytesLt l l = false := by
  induction l with
  | nil => rfl
  | cons a tl ih => simp [pyBytesLt, ih]

theorem beBytes_length : ∀ (n x : Nat), (beBytes n x).length = n := by
  intro n
  induction n with
  | zero => intro x; rfl
  | succ n ih => intro x; simp [beBytes, ih]

theorem beNat_beBytes : ∀ (n x : Nat), x < 256 ^ n → beNat (beBytes n x) = x := by
  intro n
  induction n with
  | zero =>
    intro x hx
    simp only [pow_zero] at hx
    interval_cases x
    rfl
  | succ n ih =>
    intro x hx
    have hpos : 0 < 256 ^ n := by positivity
    simp only [beBytes, beNat, beBytes_length]
    rw [ih (x % 256 ^ n) (Nat.mod_lt _ hpos)]
    rw [Nat.mul_comm]
    exact Nat.div_add_mod x (256 ^ n)

theorem beBytes_bytes_lt : ∀ (n x : Nat), x < 256 ^ n → ∀ b ∈ beBytes n x, b < 256 := by
  intro n
  induction n with
  | zero => intro x _ b hb; simp [beBytes] at hb
  | succ n ih =>
    intro x hx b hb
    have hpos : 0 < 256 ^ n := by positivity
    simp only [beBytes, List.mem_cons] at hb
    rcases hb with hb | hb
    · subst hb
      rw [Nat.div_lt_iff_lt_mul hpos]
      calc x < 256 ^ (n + 1) := hx
      _ = 256 * 256 ^ n := by ring
    · exact ih (x % 256 ^ n) (Nat.mod_lt _ hpos) b hb

/-- C7.  check_pow of kaspa_pow.pyx on 32-byte inputs is exactly the strict
big-endian unsigned comparison: it returns true iff the hash read as one
large big-endian integer is strictly below the target read the same way; a
hash byte-for-byte equal to the target does NOT meet it, and for a nonzero
target the 32-byte encoding of target-1 does meet it. -/
theorem claim_c7 (h t : List Nat) (hh : h.length = 32) (ht : t.length = 32)
    (hhb : ∀ b ∈ h, b < 256) (htb : ∀ b ∈ t, b < 256) :
    (checkPowV1 h t = true ↔ beNat h < beNat t) ∧
    checkPowV1 t t = false ∧
    (beNat t ≠ 0 → checkPowV1 (beBytes 32 (beNat t - 1)) t = true) := by
  refine ⟨pyBytesLt_iff_beNat h t (by omega) hhb htb, pyBytesLt_irrefl t, ?_⟩
  intro htnz
  have htlt := beNat_lt_pow t htb
  rw [ht] at htlt
  have hx : beNat t - 1 < 256 ^ 32 := by omega
  show pyBytesLt (beBytes 32 (beNat t - 1)) t = true
  rw [pyBytesLt_iff_beNat (beBytes 32 (beNat t - 1)) t
    (by rw [beBytes_length 32, ht]) (beBytes_bytes_lt 32 _ hx) htb]
  rw [beNat_beBytes 32 _ hx]
  omega

/-- The 32-byte target 0^31 || 0x01, used as a concrete witness input. -/
def target1 : List Nat := List.replicate 31 0 ++ [1]

/-- Witness for C7 at the all-zero hash and the target 0^31 || 0x01. -/
theorem claim_c7_witness :
    zeros32.length = 32 ∧ target1.length = 32 ∧
    ((checkPowV1 zeros32 target1 = true ↔ beNat zeros32 < beNat target1) ∧
      checkPowV1 target1 target1 = false ∧
      (beNat target1 ≠ 0 → checkPowV1 (beBytes 32 (beNat target1 - 1)) target1 = true)) :=
  ⟨by decide, by decide,
    claim_c7 zeros32 target1 (by decide) (by decide) (by decide) (by decide)⟩

theorem or_shiftRight24 (e c : Nat) (hc : c < 2 ^ 24) : ((e <<< 24) ||| c) >>> 24 = e := by
  apply Nat.eq_of_testBit_eq
  intro j
  rw [Nat.testBit_shiftRight, Nat.testBit_or, Nat.testBit_shiftLeft]
  have h1 : Nat.testBit c (24 + j) = false :=
    Nat.testBit_lt_two_pow (lt_of_lt_of_le hc (Nat.pow_le_pow_right (by norm_num) (by omega)))
  have h2 : 24 + j - 24 = j := by omega
  simp [h1, h2]

theorem or_and24 (e c : Nat) (hc : c < 2 ^ 24) : ((e <<< 24) ||| c) &&& 0xFFFFFF = c := by
  rw [and_mask24]
  apply Nat.eq_of_testBit_eq
  intro j
  rw [show (16777216 : Nat) = 2 ^ 24 from by norm_num, Nat.testBit_mod_two_pow,
    Nat.testBit_or, Nat.testBit_shiftLeft]
  by_cases hj : j < 24
  · have hge : ¬ j ≥ 24 := by omega
    simp [hj, hge]
  · have hcj : Nat.testBit c j = false :=
      Nat.testBit_lt_two_pow (lt_of_lt_of_le hc (Nat.pow_le_pow_right (by norm_num) (by omega)))
    simp [hj, hcj]

theorem bits_to_target_encode (e c : Nat) (he : e ≤ 255) (hc : c < 2 ^ 24) :
    bits_to_target ((e <<< 24) ||| c) =
      if e ≤ 3 then c >>> (8 * (3 - e)) else c <<< (8 * (e - 3)) := by
  unfold bits_to_target
  rw [or_shiftRight24 e c hc, and_mask255, Nat.mod_eq_of_lt (by omega), or_and24 e c hc]

/-- C9.  The compact-bits decoder of skills/kaspa/SKILL.md is monotone in the
exponent: for a fixed 24-bit coefficient and exponents e1 <= e2 (within a
byte), the decoded target for e1 is at most the decoded target for e2. -/
theorem claim_c9 (c e1 e2 : Nat) (hc : c < 2 ^ 24) (h12 : e1 ≤ e2) (h2 : e2 ≤ 255) :
    bits_to_target ((e1 <<< 24) ||| c) ≤ bits_to_target ((e2 <<< 24) ||| c) := by
  rw [bits_to_target_encode e1 c (by omega) hc, bits_to_target_encode e2 c h2 hc]
  by_cases h1le : e1 ≤ 3
  · by_cases h2le : e2 ≤ 3
    · rw [if_pos h1le, if_pos h2le, Nat.shiftRight_eq_div_pow, Nat.shiftRight_eq_div_pow]
      exact Nat.div_le_div_left
        (Nat.pow_le_pow_right (by norm_num) (by omega)) (by positivity)
    · rw [if_pos h1le, if_neg h2le, Nat.shiftRight_eq_div_pow, Nat.shiftLeft_eq]
      calc c / 2 ^ (8 * (3 - e1)) ≤ c := Nat.div_le_self _ _
      _ ≤ c * 2 ^ (8 * (e2 - 3)) := Nat.le_mul_of_pos_right _ (by positivity)
  · have h2gt : ¬ e2 ≤ 3 := by omega
    rw [if_neg h1le, if_neg h2gt, Nat.shiftLeft_eq, Nat.shiftLeft_eq]
    exact Nat.mul_le_mul_left c (Nat.pow_le_pow_right (by norm_num) (by omega))

/-- Witness for C9 at coefficient 5 and exponents 2 and 4. -/
theorem claim_c9_witness :
    (5 : Nat) < 2 ^ 24 ∧ (2 : Nat) ≤ 4 ∧ (4 : Nat) ≤ 255 ∧
    bits_to_target ((2 <<< 24) ||| 5) ≤ bits_to_target ((4 <<< 24) ||| 5) :=
  ⟨by decide, by decide, by decide, claim_c9 5 2 4 (by decide) (by decide) (by decide)⟩

theorem foldl_preserve {α β : Type} (P : α → Prop) (f : α → β → α)
    (h : ∀ a b, P a → P (f a b)) : ∀ (l : List β) (a : α), P a → P (l.foldl f a) := by
  intro l
  induction l with
  | nil => intro a ha; exact ha
  | cons x xs ih => intro a ha; exact ih _ (h a x ha)

theorem fillMatrix_entries_le (st : XState) (r c : Fin 64) : (fillMatrix st).1 r c ≤ 15 := by
  have hdraw : ∀ (acc : Mat × XState) (i : Fin 64) (g : Nat),
      (∀ a b, acc.1 a b ≤ 15) → ∀ a b, (drawGroup acc i g).1 a b ≤ 15 := by
    intro acc i g hp a b
    unfold drawGroup
    simp only
    split
    · rw [and_mask15]; omega
    · exact hp a b
  have key := foldl_preserve (fun acc : Mat × XState => ∀ a b, acc.1 a b ≤ 15)
    (fun acc i => (List.range 4).foldl (fun acc2 g => drawGroup acc2 i g) acc)
    (fun acc i hp =>
      foldl_preserve _ (fun acc2 g => drawGroup acc2 i g)
        (fun a g ha => hdraw a i g ha) (List.range 4) acc hp)
    (List.finRange 64) (fun _ _ => 0, st) (fun _ _ => Nat.zero_le 15)
  exact key r c

theorem foldl_state_pow {β : Type} (k : Nat) (f : Mat × XState → β → Mat × XState)
    (hf : ∀ acc b, (f acc b).2 = xsStep^[k] acc.2) :
    ∀ (l : List β) (acc : Mat × XState), (l.foldl f acc).2 = xsStep^[k * l.length] acc.2 := by
  intro l
  induction l with
  | nil => intro acc; simp
  | cons x xs ih =>
    intro acc
    rw [List.foldl_cons, ih (f acc x), hf acc x, ← Function.iterate_add_apply,
      List.length_cons]
    have hk : k * xs.length + k = k * (xs.length + 1) := by ring
    rw [hk]

theorem fillMatrix_state (st : XState) : (fillMatrix st).2 = xsStep^[256] st := by
  have hinner : ∀ (acc : Mat × XState) (i : Fin 64),
      ((List.range 4).foldl (fun acc2 g => drawGroup acc2 i g) acc).2 = xsStep^[4] acc.2 := by
    intro acc i
    have h1 : ∀ (acc2 : Mat × XState) (g : Nat),
        (drawGroup acc2 i g).2 = xsStep^[1] acc2.2 := by
      intro acc2 g
      simp [drawGroup, xsStep]
    have := foldl_state_pow 1 (fun acc2 g => drawGroup acc2 i g) h1 (List.range 4) acc
    simpa using this
  have houter := foldl_state_pow 4 _ hinner (List.finRange 64) (fun _ _ => 0, st)
  rw [List.length_finRange] at houter
  exact houter

theorem matrixGenLoop_some (fuel : Nat) :
    ∀ (st : XState) (M : Mat), matrixGenLoop fuel st = some M →
      (∀ r c, M r c ≤ 15) ∧ computeRank M = 64 := by
  induction fuel with
  | zero => intro st M h; simp [matrixGenLoop] at h
  | succ n ih =>
    intro st M h
    simp only [matrixGenLoop] at h
    by_cases hr : computeRank (fillMatrix st).1 = 64
    · rw [if_pos hr] at h
      have hM : (fillMatrix st).1 = M := by injection h
      subst hM
      exact ⟨fun r c => fillMatrix_entries_le st r c, hr⟩
    · rw [if_neg hr] at h
      exact ih _ M h

/-- C2.  Whenever generate_matrix (v2, and v3 alias generate_matrix_c)
returns a matrix -- for any digest and any number of retry iterations -- that
matrix has every entry in [0,15] and compute_rank maps it to exactly 64
(`Option.all` renders the conditional claim without hypotheses). -/
theorem claim_c2 (fuel : Nat) (D : List Nat) :
    ((generateMatrixV2 D fuel).all fun M =>
        decide ((∀ r c, M r c ≤ 15) ∧ computeRank M = 64)) = true ∧
    ((generateMatrixV3 D fuel).all fun M =>
        decide ((∀ r c, M r c ≤ 15) ∧ computeRank M = 64)) = true := by
  have main : ∀ o : Option Mat,
      (∀ M, o = some M → (∀ r c, M r c ≤ 15) ∧ computeRank M = 64) →
      (o.all fun M => decide ((∀ r c, M r c ≤ 15) ∧ computeRank M = 64)) = true := by
    intro o h
    cases o with
    | none => rfl
    | some M => simpa using h M rfl
  exact ⟨main _ (fun M h => matrixGenLoop_some fuel _ M h),
    main _ (fun M h => matrixGenLoop_some fuel _ M h)⟩

/-- C8.  The matrix generator's retry behaviour, shared by all three files:
one loop iteration fills the matrix with 256 draws and, when the rank test
fails, the next attempt continues from exactly the PRNG state reached after
those 256 draws (second conjunct) -- the loop never returns to the original
seed and never re-seeds. -/
theorem claim_c8 :
    (∀ (fuel : Nat) (st : XState),
      matrixGenLoop (fuel + 1) st =
        if computeRank (fillMatrix st).1 = 64 then some (fillMatrix st).1
        else matrixGenLoop fuel (fillMatrix st).2) ∧
    ∀ st : XState, (fillMatrix st).2 = xsStep^[256] st :=
  ⟨fun _ _ => rfl, fillMatrix_state⟩

theorem mask16_and15 (x : Nat) : (x &&& 0xFFFF) &&& 0x0F = x &&& 0x0F := by
  rw [and_mask65535, and_mask15, and_mask15]
  omega

theorem chunk_take (D : List Nat) (hD : D.length = 32) :
    ((D.take 8 ++ (D.drop 8).take 8) ++ (D.drop 16).take 8) ++ (D.drop 24).take 8 = D := by
  have t16 : D.take 8 ++ (D.drop 8).take 8 = D.take 16 := (List.take_add D 8 8).symm
  have t24 : D.take 16 ++ (D.drop 16).take 8 = D.take 24 := (List.take_add D 16 8).symm
  have t32 : D.take 24 ++ (D.drop 24).take 8 = D.take 32 := (List.take_add D 24 8).symm
  rw [t16, t24, t32, ← hD, List.take_length]

theorem v1_header_eq (D : List Nat) (hD : D.length = 32) (hb : ∀ b ∈ D, b < 256)
    (T N : Nat) :
    le64 (seedWords D 0) ++ le64 (seedWords D 1) ++ le64 (seedWords D 2) ++
        le64 (seedWords D 3) ++ le64 T ++ List.replicate 32 0 ++ le64 N =
      headerBytes D T N := by
  have hsub : ∀ k : Nat, ∀ b ∈ (D.drop k).take 8, b < 256 := fun k b hbk =>
    hb b (List.drop_subset k D (List.take_subset 8 (D.drop k) hbk))
  have hlen : ∀ k : Nat, k + 8 ≤ 32 → ((D.drop k).take 8).length = 8 := by
    intro k hk
    simp [List.length_take, List.length_drop, hD]
    omega
  have h0 : le64 (seedWords D 0) = D.take 8 := by
    show le64 (leNat ((D.drop (8 * (0 : Fin 4).val)).take 8)) = D.take 8
    rw [show 8 * (0 : Fin 4).val = 0 from rfl, List.drop_zero]
    exact le64_leNat _ (by simpa using hlen 0 (by omega)) (by simpa using hsub 0)
  have h1 : le64 (seedWords D 1) = (D.drop 8).take 8 := by
    show le64 (leNat ((D.drop (8 * (1 : Fin 4).val)).take 8)) = (D.drop 8).take 8
    rw [show 8 * (1 : Fin 4).val = 8 from rfl]
    exact le64_leNat _ (hlen 8 (by omega)) (hsub 8)
  have h2 : le64 (seedWords D 2) = (D.drop 16).take 8 := by
    show le64 (leNat ((D.drop (8 * (2 : Fin 4).val)).take 8)) = (D.drop 16).take 8
    rw [show 8 * (2 : Fin 4).val = 16 from rfl]
    exact le64_leNat _ (hlen 16 (by omega)) (hsub 16)
  have h3 : le64 (seedWords D 3) = (D.drop 24).take 8 := by
    show le64 (leNat ((D.drop (8 * (3 : Fin 4).val)).take 8)) = (D.drop 24).take 8
    rw [show 8 * (3 : Fin 4).val = 24 from rfl]
    exact le64_leNat _ (hlen 24 (by omega)) (hsub 24)
  rw [h0, h1, h2, h3]
  unfold headerBytes
  rw [chunk_take D hD]

theorem p_masks_eq (M : Mat) (hM : ∀ r c, M r c ≤ 15) (v : Fin 64 → Nat) (k : Fin 64) :
    ((((List.finRange 64).foldl (fun s j => (s + M k j * v j) % U64) 0) >>> 10) &&& 0xFFFF)
        &&& 0x0F =
      (((((List.finRange 64).foldl (fun s j => (s + (M k j % 65536) * v j) % U64) 0) >>> 10)
        &&& 0x0F) % 256) &&& 0x0F := by
  rw [powP_eq M v hM k, foldl_add_mod_finRange U64 (fun j => M k j * v j), mask16_and15,
    mask_small_cast]

theorem v1_body_eq (cshake : CShake) (D : List Nat) (T N : Nat) (M : Mat)
    (hD : D.length = 32) (hb : ∀ b ∈ D, b < 256) (hM : ∀ r c, M r c ≤ 15) :
    heavyhashV1Body cshake (seedWords D) T N M =
      (List.ofFn (computePowV2 cshake D T N M)).reverse := by
  simp only [heavyhashV1Body, computePowV2, heavyHashWithMatrix]
  rw [v1_header_eq D hD hb T N]
  apply congrArg List.reverse
  apply congrArg List.ofFn
  apply congrArg
  apply congrArg
  funext i
  congr 1
  congr 1
  · congr 1
    exact p_masks_eq M hM _ ⟨2 * i.val, by omega⟩
  · exact p_masks_eq M hM _ ⟨2 * i.val + 1, by omega⟩

/-- C3.  For the four little-endian 64-bit words of a 32-byte digest D,
heavyhash of kaspa_pow.pyx equals the byte-reversal of
compute_pow(D, T, N, generate_matrix(D)) of kaspa_pow_v2.pyx, and equally of
kaspa_pow_v3.pyx: apart from the final reversal the two pipelines produce
identical bytes (for every retry budget, including the case where matrix
generation does not terminate within it). -/
theorem claim_c3 (fuel : Nat) (cshake : CShake) (D : List Nat) (T N : Nat)
    (hD : D.length = 32) (hb : ∀ b ∈ D, b < 256) :
    heavyhashV1 cshake (seedWords D) T N fuel =
      (generateMatrixV2 D fuel).map
        (fun M => (List.ofFn (computePowV2 cshake D T N M)).reverse) ∧
    heavyhashV1 cshake (seedWords D) T N fuel =
      (generateMatrixV3 D fuel).map
        (fun M => (List.ofFn (computePowV3 cshake D T N M)).reverse) := by
  have hbody : ∀ M ∈ matrixGenLoop fuel (seedsOfBytes D),
      heavyhashV1Body cshake (seedWords D) T N M =
        (List.ofFn (computePowV2 cshake D T N M)).reverse := by
    intro M hMem
    have hM := (matrixGenLoop_some fuel _ M hMem).1
    exact v1_body_eq cshake D T N M hD hb hM
  constructor
  · show (matrixGenLoop fuel (seedsOfBytes D)).map _ =
      (matrixGenLoop fuel (seedsOfBytes D)).map _
    exact Option.map_congr hbody
  · show (matrixGenLoop fuel (seedsOfBytes D)).map _ =
      (matrixGenLoop fuel (seedsOfBytes D)).map _
    exact Option.map_congr hbody

/-- Witness for C3 at the zero digest with an exhausted retry budget. -/
theorem claim_c3_witness :
    zeros32.length = 32 ∧
    (heavyhashV1 cshakeZero (seedWords zeros32) 0 0 0 =
        (generateMatrixV2 zeros32 0).map
          (fun M => (List.ofFn (computePowV2 cshakeZero zeros32 0 0 M)).reverse) ∧
      heavyhashV1 cshakeZero (seedWords zeros32) 0 0 0 =
        (generateMatrixV3 zeros32 0).map
          (fun M => (List.ofFn (computePowV3 cshakeZero zeros32 0 0 M)).reverse)) :=
  ⟨by decide, claim_c3 0 cshakeZero zeros32 0 0 (by decide) (by decide)⟩

theorem absCond (x : ℚ) : (epsQ < x ∨ x < -epsQ) ↔ epsQ < |x| := by
  rw [lt_abs]
  constructor
  · rintro (h | h)
    · exact Or.inl h
    · exact Or.inr (by linarith)
  · rintro (h | h)
    · exact Or.inl h
    · exact Or.inr (by linarith)

theorem rankStep_eq_amended (st : RankState) (i : Fin 64) :
    rankStep st i = rankStepSpecAmended st i := by
  unfold rankStep rankStepSpecAmended pivotRow
  have hpred : (fun j => !st.sel j &&
        (decide (epsQ < st.matF j i) || decide (st.matF j i < -epsQ))) =
      fun j => !st.sel j && decide (epsQ < |st.matF j i|) := by
    funext j
    congr 1
    have h2 := absCond (st.matF j i)
    by_cases h : epsQ < |st.matF j i|
    · rcases h2.mpr h with h3 | h3 <;> simp [h3, h]
    · have h4 : ¬(epsQ < st.matF j i ∨ st.matF j i < -epsQ) := fun hc => h (h2.mp hc)
      push_neg at h4
      simp [h, h4.1, h4.2]
  rw [hpred]
  cases hfind : (List.finRange 64).find?
      (fun j => !st.sel j && decide (epsQ < |st.matF j i|)) with
  | none => rfl
  | some j =>
    simp only
    have hstep : (fun (m : Fin 64 → Fin 64 → ℚ) k =>
          if k ≠ j ∧ (epsQ < m k i ∨ m k i < -epsQ) then
            fun r c => if r = k ∧ i < c then m r c - m j c * (m k i) else m r c
          else m) =
        fun m k =>
          if k ≠ j ∧ epsQ < |m k i| then
            fun r c => if r = k ∧ i < c then m r c - m j c * (m k i) else m r c
          else m := by
      funext m k
      exact if_congr (and_congr Iff.rfl (absCond (m k i))) rfl rfl
    rw [hstep]

/-- Number of selected rows of an elimination state. -/
def selCount (st : RankState) : Nat :=
  (Finset.univ.filter fun r => st.sel r = true).card

theorem rankStep_rank_selCount (st : RankState) (i : Fin 64)
    (h : st.rank = selCount st) : (rankStep st i).rank = selCount (rankStep st i) := by
  unfold rankStep
  cases hfind : pivotRow st i with
  | none => exact h
  | some j =>
    simp only
    have hj : st.sel j = false := by
      have hp := List.find?_some hfind
      have := (Bool.and_eq_true _ _).mp hp
      simpa using this.1
    show st.rank + 1 =
      (Finset.univ.filter fun r => (if r = j then true else st.sel r) = true).card
    have hins : (Finset.univ.filter fun r => (if r = j then true else st.sel r) = true) =
        insert j (Finset.univ.filter fun r => st.sel r = true) := by
      ext r
      by_cases hr : r = j
      · subst hr; simp
      · simp [hr]
    rw [hins, Finset.card_insert_of_not_mem (by simp [hj]), h]
    rfl

theorem computeRank_le (m : Mat) :
    computeRank m = selCount ((List.finRange 64).foldl rankStep (rankInit m)) ∧
      computeRank m ≤ 64 := by
  have hinv := foldl_preserve (fun st : RankState => st.rank = selCount st) rankStep
    rankStep_rank_selCount (List.finRange 64) (rankInit m)
    (by simp [rankInit, selCount])
  refine ⟨hinv, ?_⟩
  show ((List.finRange 64).foldl rankStep (rankInit m)).rank ≤ 64
  rw [hinv]
  calc selCount ((List.finRange 64).foldl rankStep (rankInit m)) ≤
      (Finset.univ : Finset (Fin 64)).card := Finset.card_filter_le _ _
  _ = 64 := by simp

/-- C5 amended.  The rank computer is exactly the claim's procedure except
that the pivot column is eliminated from EVERY other row with a
non-negligible entry, previously selected rows included (first conjunct,
per elimination step); the returned rank is the rank counter of that amended
procedure, equals the number of pivots found (selected rows), and lies in
[0,64] (remaining conjuncts).  Real arithmetic is modelled exactly over ℚ. -/
theorem claim_c5_amended :
    (∀ (st : RankState) (i : Fin 64), rankStep st i = rankStepSpecAmended st i) ∧
    ∀ m : Mat,
      computeRank m = ((List.finRange 64).foldl rankStepSpecAmended (rankInit m)).rank ∧
      computeRank m = selCount ((List.finRange 64).foldl rankStep (rankInit m)) ∧
      computeRank m ≤ 64 := by
  refine ⟨rankStep_eq_amended, fun m => ⟨?_, (computeRank_le m).1, (computeRank_le m).2⟩⟩
  have hfn : rankStepSpecAmended = rankStep :=
    funext fun st => funext fun i => (rankStep_eq_amended st i).symm
  rw [hfn]
  rfl

/-- Elimination state used by the C5 counterexample: rows e0+e1, e1+e2,
e2, e3, ..., e63, with row 0 already selected as the pivot of column 0
(pivot value 1, so the normalization of column 0 changed nothing). -/
def rankStateCE : RankState where
  matF := fun r c =>
    if r.val = 0 ∧ c.val = 0 then 1
    else if r.val = 0 ∧ c.val = 1 then 1
    else if r.val = 1 ∧ c.val = 1 then 1
    else if r.val = 1 ∧ c.val = 2 then 1
    else if r.val = c.val ∧ 2 ≤ r.val then 1 else 0
  sel := fun r => decide (r.val = 0)
  rank := 1

theorem foldl_id_of {α β : Type} (f : α → β → α) :
    ∀ (l : List β) (a : α), (∀ b ∈ l, f a b = a) → l.foldl f a = a := by
  intro l
  induction l with
  | nil => intro a _; rfl
  | cons x xs ih =>
    intro a h
    rw [List.foldl_cons, h x (by simp)]
    exact ih a (fun b hb => h b (by simp [hb]))

theorem rankStepSpec_of_pivot (st : RankState) (i j : Fin 64)
    (hp : (List.finRange 64).find?
        (fun j2 => !st.sel j2 && decide (epsQ < |st.matF j2 i|)) = some j) :
    rankStepSpec st i =
      { matF := (List.finRange 64).foldl
          (fun m k =>
            if k ≠ j ∧ st.sel k = false ∧ epsQ < |m k i| then
              fun r c => if r = k ∧ i < c then m r c - m j c * (m k i) else m r c
            else m)
          (fun r c => if r = j ∧ i < c then st.matF r c / st.matF j i else st.matF r c),
        sel := fun r => if r = j then true else st.sel r,
        rank := st.rank + 1 } := by
  unfold rankStepSpec
  rw [hp]

set_option maxRecDepth 4000 in
attribute [local semireducible] Rat.add Rat.sub Rat.mul Rat.inv in
theorem rankStepSpec_CE_val :
    (rankStepSpec rankStateCE ⟨1, by omega⟩).matF ⟨0, by omega⟩ ⟨2, by omega⟩ = 0 := by
  have hpivotSpec : (List.finRange 64).find?
      (fun j2 => !rankStateCE.sel j2 &&
        decide (epsQ < |rankStateCE.matF j2 ⟨1, by omega⟩|)) = some ⟨1, by omega⟩ := by
    decide
  rw [rankStepSpec_of_pivot rankStateCE ⟨1, by omega⟩ ⟨1, by omega⟩ hpivotSpec]
  have hall : ∀ k ∈ List.finRange 64,
      (fun (m : Fin 64 → Fin 64 → ℚ) k =>
        if k ≠ (⟨1, by omega⟩ : Fin 64) ∧ rankStateCE.sel k = false ∧
            epsQ < |m k ⟨1, by omega⟩| then
          fun r c =>
            if r = k ∧ (⟨1, by omega⟩ : Fin 64) < c then
              m r c - m ⟨1, by omega⟩ c * (m k ⟨1, by omega⟩)
            else m r c
        else m)
        (fun r c =>
          if r = (⟨1, by omega⟩ : Fin 64) ∧ (⟨1, by omega⟩ : Fin 64) < c then
            rankStateCE.matF r c / rankStateCE.matF ⟨1, by omega⟩ ⟨1, by omega⟩
          else rankStateCE.matF r c) k =
      (fun r c =>
        if r = (⟨1, by omega⟩ : Fin 64) ∧ (⟨1, by omega⟩ : Fin 64) < c then
          rankStateCE.matF r c / rankStateCE.matF ⟨1, by omega⟩ ⟨1, by omega⟩
        else rankStateCE.matF r c) := by
    intro k _
    refine if_neg ?_
    rintro ⟨hkj, hksel, habs⟩
    have h3 : k.val = 0 ∨ k.val = 1 ∨ 2 ≤ k.val := by omega
    rcases h3 with h0 | h1 | h2
    · have hsel : rankStateCE.sel k = true := by
        simp [rankStateCE, h0]
      rw [hksel] at hsel
      exact Bool.false_ne_true hsel
    · exact hkj (Fin.ext h1)
    · have hm1k : (if k = (⟨1, by omega⟩ : Fin 64) ∧
            (⟨1, by omega⟩ : Fin 64) < (⟨1, by omega⟩ : Fin 64) then
          rankStateCE.matF k ⟨1, by omega⟩ /
            rankStateCE.matF ⟨1, by omega⟩ ⟨1, by omega⟩
        else rankStateCE.matF k ⟨1, by omega⟩) = 0 := by
        rw [if_neg (by rintro ⟨_, hlt⟩; exact lt_irrefl _ hlt)]
        simp [rankStateCE, show k.val ≠ 0 by omega, show k.val ≠ 1 by omega]
      simp only [] at habs
      rw [hm1k] at habs
      norm_num [epsQ] at habs
  rw [foldl_id_of _ (List.finRange 64) _ hall]
  decide

set_option maxRecDepth 20000 in
attribute [local semireducible] Rat.add Rat.sub Rat.mul Rat.inv in
theorem rankStep_CE_val :
    (rankStep rankStateCE ⟨1, by omega⟩).matF ⟨0, by omega⟩ ⟨2, by omega⟩ = -1 := by
  decide

set_option maxRecDepth 4000 in
attribute [local semireducible] Rat.add Rat.sub Rat.mul Rat.inv in
/-- C5 counterexample.  Processing pivot column 1 from `rankStateCE`, the
code's elimination step (rankStep, translated from compute_rank) subtracts
the new pivot row 1 from the PREVIOUSLY SELECTED row 0, driving entry (0,2)
from 0 to -1, whereas the claim's step (rankStepSpec, which leaves selected
rows untouched) keeps row 0 at its original value 0: the claim's description
of the elimination scope is false on this input.  All values involved are
small integers, so the ℚ model coincides with the double-precision run. -/
theorem claim_c5_counterexample :
    rankStateCE.sel ⟨0, by omega⟩ = true ∧
    (rankStep rankStateCE ⟨1, by omega⟩).matF ⟨0, by omega⟩ ⟨2, by omega⟩ = -1 ∧
    (rankStepSpec rankStateCE ⟨1, by omega⟩).matF ⟨0, by omega⟩ ⟨2, by omega⟩ =
      rankStateCE.matF ⟨0, by omega⟩ ⟨2, by omega⟩ ∧
    (rankStep rankStateCE ⟨1, by omega⟩).matF ⟨0, by omega⟩ ⟨2, by omega⟩ ≠
      (rankStepSpec rankStateCE ⟨1, by omega⟩).matF ⟨0, by omega⟩ ⟨2, by omega⟩ := by
  refine ⟨rfl, rankStep_CE_val, ?_, ?_⟩
  · rw [rankStepSpec_CE_val]
    decide
  · rw [rankStepSpec_CE_val, rankStep_CE_val]
    decide

end KaspaPow
